import Mathlib

/-!
Verification of the `dir-compare` crate (`src/lib.rs`).

The crate snapshots a filesystem location into a value tree (`Content` /
`Entry`) and compares such trees structurally.  We embed:

* paths as lists of parsed components, mirroring the component view that
  `std::path::Path::components()` exposes (`RootDir`, `CurDir`, `ParentDir`,
  `Normal`), with `Path.fileName` mirroring `Path::file_name()` (the last
  component when it is a `Normal` component, `none` otherwise);
* the filesystem collaborator as a structure of functions (`is_file`
  classification, whole-file read, directory listing whose items may
  themselves be errors, as with `std::fs::read_dir`);
* `Content::of` / `Entry::at` as a fuel-indexed recursion.  The result type
  distinguishes a returned value, a returned error, a panic (the crate
  panics when a directory child yields `EntryError::InvalidPath`), and fuel
  exhaustion (`div`, never produced by the real code on finite filesystems).

Rust's derived `PartialEq` on `Entry` / `Content` is embedded as explicit
boolean comparison functions (`Entry.beq`, `Content.beq`) that compare
variants, then fields, with `Vec` compared length-first and element-wise,
exactly as the derive expands.
-/

namespace DirCompare

/-- A parsed path component, as produced by `std::path::Path::components()`
(Windows prefixes omitted; the crate is path-syntax agnostic otherwise). -/
inductive Component where
  | rootDir
  | curDir
  | parentDir
  | normal (s : String)
deriving DecidableEq, Repr

/-- A path, as its parsed component sequence. -/
abbrev FsPath := List Component

/-- Mirror of `std::path::Path::file_name()`: the final component when it is
a `Normal` component, `none` otherwise (root, `.`, `..`, or empty path). -/
def FsPath.fileName (p : FsPath) : Option String :=
  match p.getLast? with
  | some (Component.normal s) => some s
  | _ => none

/-- Well-formedness of one component, as the Rust component parser
guarantees it: a `Normal` component is never the empty string, `.`, or `..`
(those parse to the dedicated component kinds instead). -/
def Component.nameOk : Component → Prop
  | Component.normal s => s ≠ "" ∧ s ≠ "." ∧ s ≠ ".."
  | _ => True

instance : DecidablePred Component.nameOk := by
  intro c
  cases c <;> simp only [Component.nameOk] <;> infer_instance

/-- Well-formedness that the Rust component parser guarantees, component by
component. -/
def FsPath.wf (p : FsPath) : Prop :=
  ∀ c ∈ p, Component.nameOk c

instance (p : FsPath) : Decidable (FsPath.wf p) :=
  List.decidableBAll Component.nameOk p

/-- An I/O error from the filesystem collaborator (`std::io::Error`),
abstracted to an error code. -/
structure IoErr where
  code : Nat
deriving DecidableEq, Repr

mutual

/-- Mirror of the crate's `Content`: byte content of a file, or the ordered
children of a directory (`File(Vec<u8>)` / `Entries(Vec<Entry>)`). -/
inductive Content where
  | File (data : List Nat)
  | Entries (entries : List Entry)
deriving Repr

/-- Mirror of the crate's `Entry`: a name paired with a `Content`. -/
inductive Entry where
  | mk (name : String) (content : Content)
deriving Repr

end

mutual

/-- Rust's derived `PartialEq` for `Content`: same variant, and fields
compare equal; `Vec` fields compare length-first, then element-wise. -/
def Content.beq : Content → Content → Bool
  | Content.File a, Content.File b => a == b
  | Content.Entries a, Content.Entries b => Entry.beqList a b
  | _, _ => false

/-- Element-wise comparison of `Vec<Entry>` as derived `PartialEq` performs
it: equal length and equal elements position by position. -/
def Entry.beqList : List Entry → List Entry → Bool
  | [], [] => true
  | x :: xs, y :: ys => Entry.beq x y && Entry.beqList xs ys
  | _, _ => false

/-- Rust's derived `PartialEq` for `Entry`: names equal and contents equal. -/
def Entry.beq : Entry → Entry → Bool
  | Entry.mk n c, Entry.mk m d => n == m && Content.beq c d

end

/-- The errors of `Entry::at` (`EntryError`): the path has no final name
component (`InvalidPath`), or an I/O failure bubbled up (`IoError`). -/
inductive EntryError where
  | InvalidPath (path : FsPath)
  | IoError (e : IoErr)
deriving DecidableEq, Repr

/-- Outcome of running a crate function: a value, a returned error, a panic,
or fuel exhaustion (`div`). -/
inductive RunResult (ε α : Type) where
  | ok (a : α)
  | error (e : ε)
  | panic
  | div
deriving Repr

/-- The filesystem collaborator: `is_file` classification, whole-file read,
and directory listing.  As with `std::fs::read_dir`, the listing itself may
fail, and each listed item may independently be an error; a successful item
carries the child's full path (`DirEntry::path()`). -/
structure FS where
  isFile : FsPath → Bool
  readFile : FsPath → Except IoErr (List Nat)
  readDir : FsPath → Except IoErr (List (Except IoErr FsPath))

/-- The iterator pipeline inside `Content::of`'s directory branch: for each
listed item, propagate the item's own error (`entry?`), else run `Entry::at`
on the child path and map its error (`IoError e => e`, `InvalidPath => panic!`);
collecting into `io::Result<Vec<_>>` stops at the first failure. -/
def collectChildren (f : FsPath → RunResult EntryError Entry) :
    List (Except IoErr FsPath) → RunResult IoErr (List Entry)
  | [] => RunResult.ok []
  | Except.error e :: _ => RunResult.error e
  | Except.ok q :: rest =>
    match f q with
    | RunResult.ok ent =>
      match collectChildren f rest with
      | RunResult.ok ents => RunResult.ok (ent :: ents)
      | RunResult.error e => RunResult.error e
      | RunResult.panic => RunResult.panic
      | RunResult.div => RunResult.div
    | RunResult.error (EntryError.IoError e) => RunResult.error e
    | RunResult.error (EntryError.InvalidPath _) => RunResult.panic
    | RunResult.panic => RunResult.panic
    | RunResult.div => RunResult.div

/-- The body of `Entry::at`, parametric in the `Content::of` call it
delegates to.  The `name` field is computed first: `path.file_name()` with
`InvalidPath` on `None` (the `?` fires before `Content::of` runs), then
`to_string_lossy` (our names are already strings), then `content`. -/
def entryAtCore (contentOf : FsPath → RunResult IoErr Content) (p : FsPath) :
    RunResult EntryError Entry :=
  match FsPath.fileName p with
  | none => RunResult.error (EntryError.InvalidPath p)
  | some n =>
    match contentOf p with
    | RunResult.ok c => RunResult.ok (Entry.mk n c)
    | RunResult.error e => RunResult.error (EntryError.IoError e)
    | RunResult.panic => RunResult.panic
    | RunResult.div => RunResult.div

/-- Mirror of `Content::of`, fuel-indexed.  If `is_file`, read the file's
bytes into `File`; otherwise list the directory and build an `Entry` per
child in listing order, failing fast, into `Entries`. -/
def Content.ofF : Nat → FS → FsPath → RunResult IoErr Content
  | 0, _, _ => RunResult.div
  | fuel + 1, fs, p =>
    if fs.isFile p then
      match fs.readFile p with
      | Except.ok data => RunResult.ok (Content.File data)
      | Except.error e => RunResult.error e
    else
      match fs.readDir p with
      | Except.error e => RunResult.error e
      | Except.ok items =>
        match collectChildren (entryAtCore (Content.ofF fuel fs)) items with
        | RunResult.ok entries => RunResult.ok (Content.Entries entries)
        | RunResult.error e => RunResult.error e
        | RunResult.panic => RunResult.panic
        | RunResult.div => RunResult.div

/-- Mirror of `Entry::at`, fuel-indexed: extract the final name component
(failing with `InvalidPath` when there is none), then delegate to
`Content::of` for the content. -/
def Entry.atF (fuel : Nat) (fs : FS) (p : FsPath) : RunResult EntryError Entry :=
  entryAtCore (Content.ofF fuel fs) p

/-- A filesystem on which every read and every listing fails (no path
exists). -/
def fsEmpty : FS where
  isFile := fun _ => false
  readFile := fun _ => Except.error ⟨1⟩
  readDir := fun _ => Except.error ⟨2⟩

/-- A filesystem on which every path is an empty directory. -/
def fsNilDir : FS where
  isFile := fun _ => false
  readFile := fun _ => Except.error ⟨1⟩
  readDir := fun _ => Except.ok []

def pathDirA : FsPath := [Component.normal "dir-a"]

def pathDirB : FsPath := [Component.normal "dir-b"]

def pathFileA : FsPath := [Component.normal "dir-a", Component.normal "x.txt"]

def pathFileB : FsPath := [Component.normal "dir-b", Component.normal "x.txt"]

/-- The bytes of the string "hello". -/
def helloBytes : List Nat := [104, 101, 108, 108, 111]

/-- The spec's concrete scenario: directories `dir-a` and `dir-b`, each
containing one file `x.txt` with bytes "hello". -/
def fsEquivalent : FS where
  isFile := fun p => decide (p = pathFileA) || decide (p = pathFileB)
  readFile := fun p =>
    if p = pathFileA then Except.ok helloBytes
    else if p = pathFileB then Except.ok helloBytes
    else Except.error ⟨2⟩
  readDir := fun p =>
    if p = pathDirA then Except.ok [Except.ok pathFileA]
    else if p = pathDirB then Except.ok [Except.ok pathFileB]
    else Except.error ⟨20⟩

/-- The snapshot both `dir-a` and `dir-b` of `fsEquivalent` produce. -/
def contentHello : Content :=
  Content.Entries [Entry.mk "x.txt" (Content.File helloBytes)]

def pathDirP : FsPath := [Component.normal "d"]

def pathF1 : FsPath := [Component.normal "d", Component.normal "f1"]

def pathF2 : FsPath := [Component.normal "d", Component.normal "f2"]

def pathF3 : FsPath := [Component.normal "d", Component.normal "f3"]

/-- A three-file directory `d` whose second file fails to read with a
permission error (code 13). -/
def fsPerm : FS where
  isFile := fun p => decide (p = pathF1) || decide (p = pathF2) || decide (p = pathF3)
  readFile := fun p =>
    if p = pathF1 then Except.ok [1]
    else if p = pathF3 then Except.ok [3]
    else Except.error ⟨13⟩
  readDir := fun p =>
    if p = pathDirP then Except.ok [Except.ok pathF1, Except.ok pathF2, Except.ok pathF3]
    else Except.error ⟨20⟩

/-- Element-wise characterization of the `Vec<Entry>` comparison: equal
lengths and equal entries at every position. -/
theorem Entry.beqList_iff : ∀ (xs ys : List Entry),
    Entry.beqList xs ys = true ↔
      (xs.length = ys.length ∧
        ∀ i hi hj, Entry.beq (xs.get ⟨i, hi⟩) (ys.get ⟨i, hj⟩) = true)
  | [], [] => by simp [Entry.beqList]
  | [], _ :: _ => by simp [Entry.beqList]
  | _ :: _, [] => by simp [Entry.beqList]
  | x :: xs, y :: ys => by
    simp only [Entry.beqList, Bool.and_eq_true, Entry.beqList_iff xs ys, List.length_cons]
    constructor
    · rintro ⟨h1, h2, h3⟩
      refine ⟨by omega, fun i hi hj => ?_⟩
      match i with
      | 0 => exact h1
      | Nat.succ n => exact h3 n (by omega) (by omega)
    · rintro ⟨h1, h2⟩
      refine ⟨h2 0 (by omega) (by omega), by omega, fun i hi hj => ?_⟩
      exact h2 (i + 1) (by omega) (by omega)

/-- C2: two `Content` values compare equal iff they are the same variant
and, for `File`, the byte sequences are identical; for `Entries`, the child
sequences have equal length and equal entries at each position (positional
comparison); values of different variants always compare unequal. -/
theorem content_beq_characterization :
    (∀ a b, Content.beq (Content.File a) (Content.File b) = true ↔ a = b)
    ∧ (∀ xs ys, Content.beq (Content.Entries xs) (Content.Entries ys) = true ↔
        (xs.length = ys.length ∧
          ∀ i hi hj, Entry.beq (xs.get ⟨i, hi⟩) (ys.get ⟨i, hj⟩) = true))
    ∧ (∀ a ys, Content.beq (Content.File a) (Content.Entries ys) = false)
    ∧ (∀ xs b, Content.beq (Content.Entries xs) (Content.File b) = false) := by
  refine ⟨fun a b => ?_, fun xs ys => ?_, fun a ys => rfl, fun xs b => rfl⟩
  · simp [Content.beq]
  · simpa only [Content.beq] using Entry.beqList_iff xs ys

/-- Witness for C2 at concrete values: two one-entry directories compare
equal, and they indeed have equal length and position-wise equal entries. -/
theorem content_beq_characterization_witness :
    Content.beq
      (Content.Entries [Entry.mk "x" (Content.File [104])])
      (Content.Entries [Entry.mk "x" (Content.File [104])]) = true :=
  (content_beq_characterization.2.1
      [Entry.mk "x" (Content.File [104])] [Entry.mk "x" (Content.File [104])]).mpr
    ⟨rfl, fun i hi hj => by
      match i with
      | 0 => rfl
      | Nat.succ n => exact absurd hi (by simp)⟩

/-- C3: two `Entry` values compare equal iff their names are equal and their
contents compare equal; in particular equal contents with unequal names
compare unequal, so `Entry` equality is strictly stronger than `Content`
equality at the top level. -/
theorem entry_beq_characterization :
    (∀ n c m d, Entry.beq (Entry.mk n c) (Entry.mk m d) = true ↔
      (n = m ∧ Content.beq c d = true))
    ∧ (∀ n c m d, n ≠ m → Entry.beq (Entry.mk n c) (Entry.mk m d) = false) := by
  constructor
  · intro n c m d
    simp [Entry.beq]
  · intro n c m d hne
    simp [Entry.beq, hne]

/-- Witness for C3: equal name and equal bytes compare equal; same content
under the names "a" and "b" compares unequal. -/
theorem entry_beq_characterization_witness :
    Entry.beq (Entry.mk "a" (Content.File [1])) (Entry.mk "a" (Content.File [1])) = true
    ∧ Entry.beq (Entry.mk "a" (Content.File [1])) (Entry.mk "b" (Content.File [1])) = false :=
  ⟨(entry_beq_characterization.1 "a" (Content.File [1]) "a" (Content.File [1])).mpr
      ⟨rfl, rfl⟩,
    entry_beq_characterization.2 "a" (Content.File [1]) "b" (Content.File [1])
      (by decide)⟩

/-- When every listed item is a successful path and the per-child
constructor succeeds on each, collection succeeds with the children's
entries in listing order. -/
theorem collectChildren_all_ok (f : FsPath → RunResult EntryError Entry) :
    ∀ (qs : List FsPath) (es : List Entry), es.length = qs.length →
      (∀ i hi hj, f (qs.get ⟨i, hi⟩) = RunResult.ok (es.get ⟨i, hj⟩)) →
      collectChildren f (qs.map Except.ok) = RunResult.ok es
  | [], [], _, _ => rfl
  | [], _ :: _, h, _ => by simp at h
  | _ :: _, [], h, _ => by simp at h
  | q :: qs, e :: es, h, hall => by
    have h0 : f q = RunResult.ok e := hall 0 (by simp) (by simp)
    have hrest : collectChildren f (qs.map Except.ok) = RunResult.ok es :=
      collectChildren_all_ok f qs es (by simpa using h)
        (fun i hi hj => hall (i + 1) (by simpa using hi) (by simpa using hj))
    simp only [List.map_cons, collectChildren, h0, hrest]

/-- Collection stops at the first failing child: whatever items follow, the
child's I/O error is the whole result. -/
theorem collectChildren_fail_fast (f : FsPath → RunResult EntryError Entry) :
    ∀ (pre : List (Except IoErr FsPath)) (q : FsPath) (rest : List (Except IoErr FsPath))
      (e : IoErr),
      (∀ it ∈ pre, ∃ q2 ent, it = Except.ok q2 ∧ f q2 = RunResult.ok ent) →
      f q = RunResult.error (EntryError.IoError e) →
      collectChildren f (pre ++ Except.ok q :: rest) = RunResult.error e
  | [], q, rest, e, _, hf => by simp only [List.nil_append, collectChildren, hf]
  | it :: pre, q, rest, e, hpre, hf => by
    obtain ⟨q2, ent, rfl, hok⟩ := hpre it (by simp)
    have hrest := collectChildren_fail_fast f pre q rest e
      (fun x hx => hpre x (by simp [hx])) hf
    simp only [List.cons_append, collectChildren, hok, List.append_eq, hrest]

/-- C1: `Content::of` reads a regular file's entire byte content into
`File`; any other path is treated as a directory: its listing is taken and
`Entry::at` is applied to each child path, the results collected into
`Entries` in exactly the listing's enumeration order (no sorting, no
deduplication). -/
theorem contentOf_file_and_directory (fs : FS) (fuel : Nat) (p : FsPath) :
    (fs.isFile p = true →
      Content.ofF (fuel + 1) fs p =
        (match fs.readFile p with
          | Except.ok data => RunResult.ok (Content.File data)
          | Except.error e => RunResult.error e))
    ∧ (∀ (qs : List FsPath) (es : List Entry), fs.isFile p = false →
        fs.readDir p = Except.ok (qs.map Except.ok) →
        es.length = qs.length →
        (∀ i hi hj, Entry.atF fuel fs (qs.get ⟨i, hi⟩) = RunResult.ok (es.get ⟨i, hj⟩)) →
        Content.ofF (fuel + 1) fs p = RunResult.ok (Content.Entries es)) := by
  constructor
  · intro hf
    simp only [Content.ofF, hf, if_true]
  · intro qs es hf hls hlen hall
    have hcc : collectChildren (entryAtCore (Content.ofF fuel fs)) (qs.map Except.ok)
        = RunResult.ok es :=
      collectChildren_all_ok (entryAtCore (Content.ofF fuel fs)) qs es hlen hall
    simp only [Content.ofF, hf, Bool.false_eq_true, if_false, hls, hcc]

/-- Witness for C1: in the concrete `fsEquivalent` filesystem, `dir-a` is
not a regular file, its listing is the single child `dir-a/x.txt`, that
child snapshots to an entry, and the directory snapshot is exactly the
one-entry `Entries` value. -/
theorem contentOf_file_and_directory_witness :
    fsEquivalent.isFile pathDirA = false
    ∧ Content.ofF 2 fsEquivalent pathDirA = RunResult.ok contentHello :=
  ⟨rfl,
    (contentOf_file_and_directory fsEquivalent 1 pathDirA).2
      [pathFileA] [Entry.mk "x.txt" (Content.File helloBytes)] rfl rfl rfl
      (fun i hi _ => by
        match i with
        | 0 => rfl
        | Nat.succ n => exact absurd hi (by simp [pathFileA]))⟩

/-- C4: fail-fast error propagation.  If a directory's listing succeeds and
some child's construction fails with an I/O error — whatever well-built
children precede it and whatever items follow it — `Content::of` on the
parent returns exactly that error: no partial tree, all earlier entries
discarded. -/
theorem contentOf_fail_fast (fs : FS) (fuel : Nat) (p : FsPath)
    (pre : List (Except IoErr FsPath)) (q : FsPath) (rest : List (Except IoErr FsPath))
    (e : IoErr)
    (hdir : fs.isFile p = false)
    (hls : fs.readDir p = Except.ok (pre ++ Except.ok q :: rest))
    (hpre : ∀ it ∈ pre, ∃ q2 ent, it = Except.ok q2 ∧ Entry.atF fuel fs q2 = RunResult.ok ent)
    (hfail : Entry.atF fuel fs q = RunResult.error (EntryError.IoError e)) :
    Content.ofF (fuel + 1) fs p = RunResult.error e := by
  have hcc : collectChildren (entryAtCore (Content.ofF fuel fs))
      (pre ++ Except.ok q :: rest) = RunResult.error e :=
    collectChildren_fail_fast (entryAtCore (Content.ofF fuel fs)) pre q rest e hpre hfail
  simp only [Content.ofF, hdir, Bool.false_eq_true, if_false, hls, hcc]

/-- Witness for C4: in `fsPerm`, directory `d` lists three files; the first
builds fine, the second fails with the permission error 13, and the parent
snapshot is exactly that error — not a partial listing. -/
theorem contentOf_fail_fast_witness :
    Entry.atF 1 fsPerm pathF2 = RunResult.error (EntryError.IoError ⟨13⟩)
    ∧ Content.ofF 2 fsPerm pathDirP = RunResult.error ⟨13⟩ :=
  ⟨rfl,
    contentOf_fail_fast fsPerm 1 pathDirP [Except.ok pathF1] pathF2 [Except.ok pathF3] ⟨13⟩
      rfl rfl
      (fun it hit => by
        simp only [List.mem_singleton] at hit
        exact ⟨pathF1, Entry.mk "f1" (Content.File [1]), hit, rfl⟩)
      rfl⟩

/-- C9: a path with no final name component is rejected before any
filesystem access: `Entry::at` returns `InvalidPath` on it uniformly in the
filesystem — even one where the path does not exist and every read fails. -/
theorem entryAt_invalid_before_fs_access (fuel : Nat) (p : FsPath)
    (h : FsPath.fileName p = none) :
    ∀ fs : FS, Entry.atF fuel fs p = RunResult.error (EntryError.InvalidPath p) := by
  intro fs
  simp only [Entry.atF, entryAtCore, h]

/-- Witness for C9: the parent-marker path has no file name, and on the
all-failing filesystem `fsEmpty` the result is still `InvalidPath`, not an
I/O error. -/
theorem entryAt_invalid_before_fs_access_witness :
    FsPath.fileName [Component.parentDir] = none
    ∧ Entry.atF 0 fsEmpty [Component.parentDir]
        = RunResult.error (EntryError.InvalidPath [Component.parentDir]) :=
  ⟨rfl, entryAt_invalid_before_fs_access 0 [Component.parentDir] rfl fsEmpty⟩

/-- C10: `Content::of` classifies solely by the `is_file` test: every
non-regular-file path — nonexistent paths included — takes the directory
branch and attempts a listing, so when the listing fails the result is
exactly the listing's I/O error (no success, no panic). -/
theorem contentOf_nonfile_directory_branch (fs : FS) (fuel : Nat) (p : FsPath) (e : IoErr)
    (h1 : fs.isFile p = false) (h2 : fs.readDir p = Except.error e) :
    Content.ofF (fuel + 1) fs p = RunResult.error e := by
  simp only [Content.ofF, h1, Bool.false_eq_true, if_false, h2]

/-- Witness for C10: on the filesystem where nothing exists, a nonexistent
path yields the listing's error (code 2), not a success and not a panic. -/
theorem contentOf_nonfile_directory_branch_witness :
    fsEmpty.isFile [Component.normal "missing"] = false
    ∧ Content.ofF 1 fsEmpty [Component.normal "missing"] = RunResult.error ⟨2⟩ :=
  ⟨rfl, contentOf_nonfile_directory_branch fsEmpty 0 [Component.normal "missing"] ⟨2⟩ rfl rfl⟩

/-- One step of lexical path normalization: drop a `.` component, cancel a
normal component against a following `..`, append anything else. -/
def normalizeStep (acc : FsPath) (c : Component) : FsPath :=
  match c with
  | Component.curDir => acc
  | Component.parentDir =>
    match acc.getLast? with
    | some (Component.normal _) => acc.dropLast
    | _ => acc ++ [Component.parentDir]
  | c => acc ++ [c]

/-- Lexical normalization of a component sequence (resolve `.` and
`name/..` pairs). -/
def normalizeComponents (p : FsPath) : FsPath :=
  p.foldl normalizeStep []

/-- Reading of the spec phrase "a path that reduces to the
parent-directory marker", following the spec's words: the path lexically
normalizes to exactly `..`.  Stated for comparison with the code's
`file_name`-based test. -/
def specReducesToParentMarker (p : FsPath) : Prop :=
  normalizeComponents p = [Component.parentDir]

instance (p : FsPath) : Decidable (specReducesToParentMarker p) := by
  unfold specReducesToParentMarker
  infer_instance

/-- Counterexample to C5 as stated: the current-directory path `.` has no
determinable final name component, so `Entry::at` rejects it with
`InvalidPath` — yet it is not the parent-directory marker, does not reduce
to it, and does not even contain it. -/
theorem entryAt_invalid_counterexample :
    FsPath.fileName [Component.curDir] = none
    ∧ Entry.atF 1 fsEmpty [Component.curDir]
        = RunResult.error (EntryError.InvalidPath [Component.curDir])
    ∧ ¬([Component.curDir] = ([Component.parentDir] : FsPath)
        ∨ specReducesToParentMarker [Component.curDir])
    ∧ Component.parentDir ∉ ([Component.curDir] : FsPath) := by
  refine ⟨rfl, rfl, by decide, by decide⟩

/-- C5 amended: `Entry::at(path)` fails with `InvalidPath(path)` — always
carrying the input path itself — exactly when the path has no determinable
final name component; those paths are exactly the ones whose last parsed
component is not a normal name (the empty path and paths ending in the
root, the `.` marker, or the `..` marker), not only `..`-reducible paths;
for every path that does have a final component, `Entry::at` takes it as
the name and delegates to `Content::of` for the content, wrapping its
error. -/
theorem entryAt_invalid_characterization (fs : FS) (fuel : Nat) (p : FsPath) :
    (Entry.atF fuel fs p = RunResult.error (EntryError.InvalidPath p) ↔
      FsPath.fileName p = none)
    ∧ (∀ q, Entry.atF fuel fs p = RunResult.error (EntryError.InvalidPath q) → q = p)
    ∧ (FsPath.fileName p = none ↔ ∀ s, p.getLast? ≠ some (Component.normal s))
    ∧ (∀ n, FsPath.fileName p = some n →
        Entry.atF fuel fs p =
          (match Content.ofF fuel fs p with
            | RunResult.ok c => RunResult.ok (Entry.mk n c)
            | RunResult.error e => RunResult.error (EntryError.IoError e)
            | RunResult.panic => RunResult.panic
            | RunResult.div => RunResult.div)) := by
  refine ⟨⟨fun h => ?_, fun h => ?_⟩, fun q h => ?_, ?_, fun n hn => ?_⟩
  · cases hn : FsPath.fileName p with
    | none => rfl
    | some n =>
      exfalso
      simp only [Entry.atF, entryAtCore, hn] at h
      cases hc : Content.ofF fuel fs p <;> rw [hc] at h <;> simp at h
  · simp only [Entry.atF, entryAtCore, h]
  · cases hn : FsPath.fileName p with
    | none =>
      simp only [Entry.atF, entryAtCore, hn, RunResult.error.injEq,
        EntryError.InvalidPath.injEq] at h
      exact h.symm
    | some n =>
      exfalso
      simp only [Entry.atF, entryAtCore, hn] at h
      cases hc : Content.ofF fuel fs p <;> rw [hc] at h <;> simp at h
  · unfold FsPath.fileName
    cases p.getLast? with
    | none => simp
    | some c => cases c <;> simp
  · simp only [Entry.atF, entryAtCore, hn]

/-- Witness for the amended C5: the path `dir-a/x.txt` has final component
`x.txt`, and on the concrete filesystem `Entry::at` is `Content::of`'s
result wrapped with that name. -/
theorem entryAt_invalid_characterization_witness :
    FsPath.fileName pathFileA = some "x.txt"
    ∧ Entry.atF 1 fsEquivalent pathFileA
        = RunResult.ok (Entry.mk "x.txt" (Content.File helloBytes)) := by
  refine ⟨rfl, ?_⟩
  have h := (entryAt_invalid_characterization fsEquivalent 1 pathFileA).2.2.2 "x.txt" rfl
  rw [h]
  rfl

/-- The collaborator contract on listings: `read_dir` never yields the
current-directory or parent-directory markers, so every successfully listed
child path has a determinable final name component. -/
def FS.listingHasNames (fs : FS) : Prop :=
  ∀ p l q, fs.readDir p = Except.ok l → Except.ok q ∈ l →
    (FsPath.fileName q).isSome = true

/-- A child whose path has a file name can never produce `InvalidPath`. -/
theorem entryAtCore_not_invalidPath (f : FsPath → RunResult IoErr Content) (q : FsPath)
    (h : (FsPath.fileName q).isSome = true) (p2 : FsPath) :
    entryAtCore f q ≠ RunResult.error (EntryError.InvalidPath p2) := by
  cases hn : FsPath.fileName q with
  | none => rw [hn] at h; simp at h
  | some n =>
    simp only [entryAtCore, hn]
    cases f q <;> simp

/-- `Entry::at` panics only when its inner `Content::of` call panics. -/
theorem entryAtCore_panic_inner (f : FsPath → RunResult IoErr Content) (q : FsPath)
    (h : entryAtCore f q = RunResult.panic) : f q = RunResult.panic := by
  cases hn : FsPath.fileName q with
  | none => simp [entryAtCore, hn] at h
  | some n =>
    simp only [entryAtCore, hn] at h
    cases hf : f q <;> rw [hf] at h <;> simp_all

/-- Child collection cannot panic when no child produces `InvalidPath` and
no child itself panics. -/
theorem collectChildren_no_panic (f : FsPath → RunResult EntryError Entry) :
    ∀ items : List (Except IoErr FsPath),
      (∀ q, Except.ok q ∈ items →
        ((∀ p2, f q ≠ RunResult.error (EntryError.InvalidPath p2))
          ∧ f q ≠ RunResult.panic)) →
      collectChildren f items ≠ RunResult.panic
  | [], _ => by simp [collectChildren]
  | Except.error e :: rest, _ => by simp [collectChildren]
  | Except.ok q :: rest, h => by
    have hq := h q (by simp)
    have hrest := collectChildren_no_panic f rest (fun q2 hq2 => h q2 (by simp [hq2]))
    simp only [collectChildren]
    cases hf : f q with
    | ok ent =>
      cases hc : collectChildren f rest <;> simp_all
    | error e =>
      cases e with
      | IoError e0 => simp
      | InvalidPath p2 => exact absurd hf (hq.1 p2)
    | panic => exact absurd hf hq.2
    | div => simp

/-- C6: under the collaborator contract that listings never yield the
current or parent markers, the defensive `InvalidPath => panic!` branch in
`Content::of` is unreachable: for every fuel and path the run never
panics, so the only failures `Content::of` produces are returned I/O
errors. -/
theorem contentOf_never_panics (fs : FS) (h : fs.listingHasNames) :
    ∀ (fuel : Nat) (p : FsPath), Content.ofF fuel fs p ≠ RunResult.panic := by
  intro fuel
  induction fuel with
  | zero => intro p; simp [Content.ofF]
  | succ n ih =>
    intro p
    unfold Content.ofF
    split
    · cases hr : fs.readFile p <;> simp
    · cases hd : fs.readDir p with
      | error e => simp
      | ok items =>
        have hcc : collectChildren (entryAtCore (Content.ofF n fs)) items
            ≠ RunResult.panic := by
          refine collectChildren_no_panic _ items fun q hq => ?_
          refine ⟨entryAtCore_not_invalidPath _ q (h p items q hd hq), fun hp => ?_⟩
          exact (ih q) (entryAtCore_panic_inner _ q hp)
        cases hc : collectChildren (entryAtCore (Content.ofF n fs)) items <;> simp_all

/-- Witness for C6: the everywhere-empty-directory filesystem satisfies the
listing contract, and snapshotting any path on it does not panic. -/
theorem contentOf_never_panics_witness :
    FS.listingHasNames fsNilDir
    ∧ Content.ofF 1 fsNilDir [] ≠ RunResult.panic := by
  have hc : FS.listingHasNames fsNilDir := by
    intro p l q hl hq
    injection hl with h0
    subst h0
    simp at hq
  exact ⟨hc, contentOf_never_panics fsNilDir hc 1 []⟩

mutual

/-- Every entry name nested anywhere in the tree is non-empty and differs
from the parent-directory marker `..`. -/
def Content.namesOk : Content → Bool
  | Content.File _ => true
  | Content.Entries es => Entry.namesOkList es

/-- Name check over a list of entries. -/
def Entry.namesOkList : List Entry → Bool
  | [] => true
  | e :: es => Entry.namesOk e && Entry.namesOkList es

/-- The entry's own name is non-empty and not `..`, and so is every name
nested in its content. -/
def Entry.namesOk : Entry → Bool
  | Entry.mk n c => !(n == "") && !(n == "..") && Content.namesOk c

end

/-- List characterization of the name check. -/
theorem Entry.namesOkList_iff : ∀ es : List Entry,
    Entry.namesOkList es = true ↔ ∀ e ∈ es, Entry.namesOk e = true
  | [] => by simp [Entry.namesOkList]
  | e :: es => by
    simp [Entry.namesOkList, Entry.namesOkList_iff es]

/-- The collaborator contract on listings, component-parser form: every
successfully listed child path is well formed. -/
def FS.listingWf (fs : FS) : Prop :=
  ∀ p l q, fs.readDir p = Except.ok l → Except.ok q ∈ l → FsPath.wf q

/-- Every entry of a successful collection comes from a successful
`Entry::at` on one of the listed child paths. -/
theorem collectChildren_ok_mem (f : FsPath → RunResult EntryError Entry) :
    ∀ (items : List (Except IoErr FsPath)) (ents : List Entry),
      collectChildren f items = RunResult.ok ents →
      ∀ ent ∈ ents, ∃ q, Except.ok q ∈ items ∧ f q = RunResult.ok ent
  | [], ents, h => by
    simp only [collectChildren, RunResult.ok.injEq] at h
    subst h
    intro ent hent
    simp at hent
  | Except.error e :: rest, ents, h => by
    simp [collectChildren] at h
  | Except.ok q :: rest, ents, h => by
    simp only [collectChildren] at h
    cases hf : f q with
    | ok ent0 =>
      rw [hf] at h
      cases hc : collectChildren f rest with
      | ok ents0 =>
        rw [hc] at h
        simp only [RunResult.ok.injEq] at h
        subst h
        intro ent hent
        rcases List.mem_cons.mp hent with rfl | hmem
        · exact ⟨q, by simp, hf⟩
        · obtain ⟨q2, hq2, hfq2⟩ := collectChildren_ok_mem f rest ents0 hc ent hmem
          exact ⟨q2, by simp [hq2], hfq2⟩
      | error e => rw [hc] at h; simp at h
      | panic => rw [hc] at h; simp at h
      | div => rw [hc] at h; simp at h
    | error e0 =>
      cases e0 <;> rw [hf] at h <;> simp at h
    | panic => rw [hf] at h; simp at h
    | div => rw [hf] at h; simp at h

/-- Inversion for a successful `Entry::at`: the path had a final name, the
content call succeeded, and the entry is their pairing. -/
theorem entryAtCore_ok_inv (f : FsPath → RunResult IoErr Content) (q : FsPath) (ent : Entry)
    (h : entryAtCore f q = RunResult.ok ent) :
    ∃ n c, FsPath.fileName q = some n ∧ f q = RunResult.ok c ∧ ent = Entry.mk n c := by
  cases hn : FsPath.fileName q with
  | none => simp [entryAtCore, hn] at h
  | some n =>
    simp only [entryAtCore, hn] at h
    cases hc : f q with
    | ok c =>
      rw [hc] at h
      simp only [RunResult.ok.injEq] at h
      exact ⟨n, c, rfl, rfl, h.symm⟩
    | error e => rw [hc] at h; simp at h
    | panic => rw [hc] at h; simp at h
    | div => rw [hc] at h; simp at h

/-- On a well-formed path, an extracted file name is non-empty and not the
parent marker. -/
theorem fileName_ok_of_wf (p : FsPath) (hp : FsPath.wf p) (n : String)
    (h : FsPath.fileName p = some n) : n ≠ "" ∧ n ≠ ".." := by
  unfold FsPath.fileName at h
  cases hl : p.getLast? with
  | none => rw [hl] at h; cases h
  | some c =>
    rw [hl] at h
    cases c with
    | normal s =>
      simp only [Option.some.injEq] at h
      rw [h] at hl
      have hmem : Component.normal n ∈ p := by
        obtain ⟨hne, heq⟩ := List.mem_getLast?_eq_getLast (x := Component.normal n) hl
        exact heq ▸ List.getLast_mem hne
      have hok := hp _ hmem
      exact ⟨hok.1, hok.2.2⟩
    | rootDir => cases h
    | curDir => cases h
    | parentDir => cases h

/-- Every tree a successful `Content::of` run builds has only valid nested
names, provided the listings only yield well-formed child paths. -/
theorem contentOf_namesOk (fs : FS) (hfs : fs.listingWf) :
    ∀ (fuel : Nat) (p : FsPath) (c : Content),
      Content.ofF fuel fs p = RunResult.ok c → Content.namesOk c = true := by
  intro fuel
  induction fuel with
  | zero => intro p c h; simp [Content.ofF] at h
  | succ n ih =>
    intro p c h
    unfold Content.ofF at h
    split at h
    · cases hr : fs.readFile p with
      | ok data =>
        rw [hr] at h
        simp only [RunResult.ok.injEq] at h
        subst h
        rfl
      | error e => rw [hr] at h; simp at h
    · cases hd : fs.readDir p with
      | error e => rw [hd] at h; simp at h
      | ok items =>
        simp only [hd] at h
        cases hc : collectChildren (entryAtCore (Content.ofF n fs)) items with
        | ok ents =>
          simp only [hc, RunResult.ok.injEq] at h
          subst h
          simp only [Content.namesOk]
          rw [Entry.namesOkList_iff]
          intro ent hent
          obtain ⟨q, hqmem, hq⟩ := collectChildren_ok_mem _ items ents hc ent hent
          obtain ⟨nm, c2, hnm, hc2, rfl⟩ := entryAtCore_ok_inv _ q ent hq
          have hwfq : FsPath.wf q := hfs p items q hd hqmem
          have hname := fileName_ok_of_wf q hwfq nm hnm
          simp only [Entry.namesOk, Bool.and_eq_true, Bool.not_eq_true',
            beq_eq_false_iff_ne, ne_eq]
          exact ⟨⟨hname.1, hname.2⟩, ih q c2 hc2⟩
        | error e => simp only [hc] at h; cases h
        | panic => simp only [hc] at h; cases h
        | div => simp only [hc] at h; cases h

/-- C7: on a well-formed path, with listings that only yield well-formed
child paths, every successfully constructed `Entry` — whether built by
`Entry::at` at the top or anywhere during the recursive descent — has a
non-empty name different from `..`, and the invariant holds throughout any
constructed `Content` tree. -/
theorem entry_name_invariant (fs : FS) (fuel : Nat) (p : FsPath) (hfs : fs.listingWf) :
    (∀ ent, FsPath.wf p → Entry.atF fuel fs p = RunResult.ok ent →
      Entry.namesOk ent = true)
    ∧ (∀ c, Content.ofF fuel fs p = RunResult.ok c → Content.namesOk c = true) := by
  constructor
  · intro ent hp h
    obtain ⟨nm, c2, hnm, hc2, rfl⟩ := entryAtCore_ok_inv _ p ent h
    have hname := fileName_ok_of_wf p hp nm hnm
    simp only [Entry.namesOk, Bool.and_eq_true, Bool.not_eq_true',
      beq_eq_false_iff_ne, ne_eq]
    exact ⟨⟨hname.1, hname.2⟩, contentOf_namesOk fs hfs fuel p c2 hc2⟩
  · intro c h
    exact contentOf_namesOk fs hfs fuel p c h

/-- Witness for C7: the concrete two-directory filesystem satisfies the
listing contract, and the entry built at `dir-a` passes the name check
throughout. -/
theorem entry_name_invariant_witness :
    FS.listingWf fsEquivalent
    ∧ Entry.namesOk (Entry.mk "dir-a" contentHello) = true := by
  have hwf : FS.listingWf fsEquivalent := by
    intro p l q hl hq
    simp only [fsEquivalent] at hl
    split at hl
    · injection hl with h0
      subst h0
      simp only [List.mem_singleton] at hq
      injection hq with h1
      subst h1
      decide
    · split at hl
      · injection hl with h0
        subst h0
        simp only [List.mem_singleton] at hq
        injection hq with h1
        subst h1
        decide
      · cases hl
  refine ⟨hwf, ?_⟩
  exact (entry_name_invariant fsEquivalent 2 pathDirA hwf).1
    (Entry.mk "dir-a" contentHello) (by decide) rfl

/-- C8: whenever two paths with different final names snapshot to contents
that compare equal — as two directories with identical children names,
bytes, and listing order do — `Content::of` yields equal values while
`Entry::at` yields values that compare unequal, the names differing. -/
theorem content_eq_entry_ne (fs : FS) (fuel : Nat) (pa pb : FsPath) (na nb : String)
    (ca cb : Content)
    (ha : FsPath.fileName pa = some na) (hb : FsPath.fileName pb = some nb)
    (hne : na ≠ nb)
    (hca : Content.ofF fuel fs pa = RunResult.ok ca)
    (hcb : Content.ofF fuel fs pb = RunResult.ok cb)
    (heq : Content.beq ca cb = true) :
    Content.beq ca cb = true
    ∧ Entry.atF fuel fs pa = RunResult.ok (Entry.mk na ca)
    ∧ Entry.atF fuel fs pb = RunResult.ok (Entry.mk nb cb)
    ∧ Entry.beq (Entry.mk na ca) (Entry.mk nb cb) = false := by
  refine ⟨heq, ?_, ?_, ?_⟩
  · simp only [Entry.atF, entryAtCore, ha, hca]
  · simp only [Entry.atF, entryAtCore, hb, hcb]
  · simp [Entry.beq, hne]

/-- Witness for C8, the spec's concrete scenario: `dir-a` and `dir-b` each
hold one file `x.txt` with bytes "hello"; their `Content` snapshots compare
equal while their `Entry` snapshots compare unequal. -/
theorem content_eq_entry_ne_witness :
    Content.beq contentHello contentHello = true
    ∧ Entry.atF 2 fsEquivalent pathDirA = RunResult.ok (Entry.mk "dir-a" contentHello)
    ∧ Entry.atF 2 fsEquivalent pathDirB = RunResult.ok (Entry.mk "dir-b" contentHello)
    ∧ Entry.beq (Entry.mk "dir-a" contentHello) (Entry.mk "dir-b" contentHello) = false :=
  content_eq_entry_ne fsEquivalent 2 pathDirA pathDirB "dir-a" "dir-b"
    contentHello contentHello rfl rfl (by decide) rfl rfl rfl

end DirCompare
